import Mathlib

/-!
The trailer-rendering terminal controller of go-ansicraft.

A shallow embedding of `termctrl.go`.  The controller wraps an `io.Writer`
(the sink), buffers the unfinished last line of scrollback, and repaints a
block of trailer lines after every write.

The sink is part of the state: it records every payload handed to its `Write`
method and answers each call either by taking the whole payload or by failing
after some prefix, so that the flush of the buffered line
(`bytes.Buffer.WriteTo`) behaves as Go's does when the sink misbehaves.
The mutex of the Go struct is left out: the embedding is sequential.
-/

namespace Ansicraft

/-! ## Bytes and the Go library functions the controller calls -/

/-- One element of a Go byte slice. -/
abbrev Byte := Fin 256

/-- The line-break byte, written as a newline character literal in the source. -/
def nl : Byte := 10

/-- The error values that can come back from the sink or from the flush of a
buffer.  The controller never looks at them. -/
inductive IOError where
  | fault
  | shortWrite

/-- The `io.Writer` the controller is bound to.  `calls` is the list of the
payloads handed to `Write` so far, oldest first.  `resp` is the behaviour of the
device: given the earlier payloads and the current one it answers `none` when
the whole payload is taken without error, and `some k` when the call fails
after taking `k` bytes.  The count is capped at the length of the payload, as
`io.Writer` requires (`bytes.Buffer.WriteTo` panics on a larger one). -/
structure Sink where
  resp : List (List Byte) → List Byte → Option Nat
  calls : List (List Byte)

/-- Number of bytes the sink takes of payload `p` in its current condition. -/
def Sink.taken (w : Sink) (p : List Byte) : Nat :=
  match w.resp w.calls p with
  | none => p.length
  | some k => min k p.length

/-- The method `Write` of the sink: the payload is recorded, and the count of
bytes taken and the error are returned. -/
def Sink.Write (w : Sink) (p : List Byte) : Sink × Nat × Option IOError :=
  ({ w with calls := w.calls ++ [p] }, w.taken p,
    match w.resp w.calls p with
    | none => none
    | some _ => some IOError.fault)

/-- All bytes handed to the sink so far, in order. -/
def Sink.bytes (w : Sink) : List Byte := w.calls.flatten

/-- A sink that accepts every write. -/
def Sink.AcceptsAll (w : Sink) : Prop := ∀ h p, w.resp h p = none

/-- The loop of `bytes.LastIndexByte`: `n` candidates remain, the next index
looked at is `n - 1`. -/
def lastIndexLoop (s : List Byte) (c : Byte) : Nat → Int
  | 0 => -1
  | i + 1 => if s[i]? = some c then (i : Int) else lastIndexLoop s c i

/-- Go's `bytes.LastIndexByte`: index of the last `c` in `s`, or `-1`. -/
def LastIndexByte (s : List Byte) (c : Byte) : Int :=
  lastIndexLoop s c s.length

/-- The byte of an ASCII character. -/
def charByte (c : Char) : Byte := Fin.ofNat c.toNat

/-- Go's `strconv.Itoa`: the decimal text of an integer, with a minus sign
for a negative one.  The digits are those of `Nat.toDigits 10`. -/
def Itoa (i : Int) : List Byte :=
  if i < 0 then (45 : Byte) :: (Nat.toDigits 10 i.natAbs).map charByte
  else (Nat.toDigits 10 i.toNat).map charByte

/-- `bytes.Buffer.WriteTo` on a buffer whose unread content is `b`: a
non-empty buffer is handed to the sink in one call and loses the bytes the sink
took; it is reset only when the sink took all of it without error.  Returns
the buffer left, the sink, the count and the error. -/
def bufWriteTo (b : List Byte) (w : Sink) : List Byte × Sink × Nat × Option IOError :=
  if 0 < b.length then
    match w.Write b with
    | (w1, m, some e) => (b.drop m, w1, m, some e)
    | (w1, m, none) =>
      if m ≠ b.length then (b.drop m, w1, m, some IOError.shortWrite)
      else ([], w1, m, none)
  else ([], w, 0, none)

/-! ## The controller -/

/-- The Go struct `Controller`: the sink `wr`, the buffer `partial` (here
`partialBuf`) holding the line of regular output that has no line break
yet, and the `trailer` lines. -/
structure Controller where
  wr : Sink
  partialBuf : List Byte
  trailer : List (List Byte)

/-- The statement `tc.wr.Write(p)` with its results dropped, as everywhere in
the source. -/
def Controller.wrWrite (tc : Controller) (p : List Byte) : Controller :=
  { tc with wr := (tc.wr.Write p).1 }

/-- The escape sequence `ESC [ J`: clear from cursor to end of screen. -/
def clearCode : List Byte := [27, 91, 74]

/-- The escape sequence `ESC [ m`: reset all styles. -/
def styleReset : List Byte := [27, 91, 109]

/-- The payload of a cursor move: carriage return, `ESC [`, the decimal digits
of `n`, `A`. -/
def cursorUpCode (n : Int) : List Byte := [13, 27, 91] ++ Itoa n ++ [65]

/-- The body of `cursorPositionSave` is commented out in the source. -/
def Controller.cursorPositionSave (tc : Controller) : Controller := tc

/-- The body of `cursorPositionRestore` is commented out in the source. -/
def Controller.cursorPositionRestore (tc : Controller) : Controller := tc

/-- `cursorMoveUp`: nothing unless `n > 0`. -/
def Controller.cursorMoveUp (tc : Controller) (n : Int) : Controller :=
  if n > 0 then tc.wrWrite (cursorUpCode n) else tc

/-- `clearToEnd`. -/
def Controller.clearToEnd (tc : Controller) : Controller :=
  tc.wrWrite clearCode

/-- `currentTrailerHeight`.  Go's `int` is read as an integer: the length of
a slice of slices plus one does not overflow it. -/
def Controller.currentTrailerHeight (tc : Controller) : Int :=
  let h : Int := tc.trailer.length
  if tc.partialBuf.length > 0 then h + 1 else h

/-- The loop over the trailer in `printTrailer`: each line, then a line
break. -/
def Controller.printLines (tc : Controller) (lines : List (List Byte)) : Controller :=
  lines.foldl (fun c line => (c.wrWrite line).wrWrite [nl]) tc

/-- `printTrailer`. -/
def Controller.printTrailer (tc : Controller) : Controller :=
  let p := tc.partialBuf
  let tc1 := if p.length > 0 then (tc.wrWrite p).wrWrite [nl] else tc
  let tc2 := tc1.wrWrite styleReset
  let tc3 := tc2.printLines tc2.trailer
  (tc3.cursorMoveUp tc3.currentTrailerHeight).cursorPositionRestore

/-- `NewController`. -/
def NewController (tty : Sink) : Controller :=
  Controller.cursorPositionSave { wr := tty, partialBuf := [], trailer := [] }

/-- The statement `tc.partial.Write(p)`: the buffer grows by `p`. -/
def Controller.partialWrite (tc : Controller) (p : List Byte) : Controller :=
  { tc with partialBuf := tc.partialBuf ++ p }

/-- The statement `tc.partial.WriteTo(tc.wr)` with its results dropped. -/
def Controller.partialWriteTo (tc : Controller) : Controller :=
  let r := bufWriteTo tc.partialBuf tc.wr
  { tc with wr := r.2.1, partialBuf := r.1 }

/-- The `switch` of `Write`, between the clear and the repaint.  The cases
are tried in the order of the source, so the empty message takes the first. -/
def Controller.writeSwitch (tc : Controller) (msg : List Byte) : Controller :=
  let idxLastBr := LastIndexByte msg nl
  if idxLastBr = -1 then
    tc.partialWrite msg
  else if idxLastBr = (msg.length : Int) - 1 then
    ((tc.partialWriteTo).wrWrite msg).cursorPositionSave
  else
    (((tc.partialWriteTo).wrWrite (msg.take (idxLastBr + 1).toNat)).cursorPositionSave).partialWrite
      (msg.drop (idxLastBr + 1).toNat)

/-- `SetTrailer`. -/
def Controller.SetTrailer (tc : Controller) (lines : List (List Byte)) : Controller :=
  ({ tc with trailer := lines }.clearToEnd).printTrailer

/-- `Write`: the new state, the count and the error returned. -/
def Controller.Write (tc : Controller) (msg : List Byte) : Controller × Int × Option IOError :=
  (((tc.clearToEnd).writeSwitch msg).printTrailer, (msg.length : Int), none)

/-! ## Vocabulary of the statements -/

/-- The controller once the payloads `L` have been handed to the sink, with
nothing else changed. -/
def Controller.emit (tc : Controller) (L : List (List Byte)) : Controller :=
  { tc with wr := { tc.wr with calls := tc.wr.calls ++ L } }

/-- Height of the repainted block for buffered line `p` and trailer `t`: the
number of trailer lines, and one more when `p` is non-empty. -/
def blockHeight (p : List Byte) (t : List (List Byte)) : Int :=
  (t.length : Int) + (if p = [] then 0 else 1)

/-- The cursor-up for `n` lines: the move sequence, and nothing for `n ≤ 0`. -/
def cursorUp (n : Int) : List Byte := if 0 < n then cursorUpCode n else []

/-- The bytes of the trailer lines as a repaint writes them: each line, then
a line break. -/
def trailerBytes (t : List (List Byte)) : List Byte := (t.map (fun l => l ++ [nl])).flatten

/-- The payloads of a repaint of buffered line `p` and trailer `t`, one for
each call of the sink. -/
def repaintCalls (p : List Byte) (t : List (List Byte)) : List (List Byte) :=
  (if p = [] then [] else [p, [nl]]) ++ [styleReset] ++ (t.map (fun l => [l, [nl]])).flatten
    ++ (if 0 < blockHeight p t then [cursorUpCode (blockHeight p t)] else [])

/-- The bytes of a repaint of buffered line `p` and trailer `t`: the buffered
line and a line break when it is non-empty, the style reset, the trailer
lines, and the cursor-up for the height of the block. -/
def repaintBytes (p : List Byte) (t : List (List Byte)) : List Byte :=
  (if p = [] then [] else p ++ [nl]) ++ styleReset ++ trailerBytes t
    ++ cursorUp (blockHeight p t)

/-- Payloads of the flush of the buffered line `p`: one call, and none for an
empty buffer. -/
def flushCalls (p : List Byte) : List (List Byte) := if p = [] then [] else [p]

/-- The bytes handed to the sink on the way from state `a` to the later
state `b`, whether the sink took them or not. -/
def emitted (a b : Controller) : List Byte := b.wr.bytes.drop a.wr.bytes.length

/-- A call of one of the two public operations. -/
inductive Op where
  | write (msg : List Byte)
  | setTrailer (lines : List (List Byte))

/-- The state after one call. -/
def Controller.step (tc : Controller) : Op → Controller
  | Op.write msg => (tc.Write msg).1
  | Op.setTrailer lines => tc.SetTrailer lines

/-- The state after a sequence of calls. -/
def Controller.run (tc : Controller) (ops : List Op) : Controller :=
  ops.foldl Controller.step tc

/-- The state of a call just before its final `printTrailer`. -/
def Controller.beforeRepaint (tc : Controller) : Op → Controller
  | Op.write msg => (tc.clearToEnd).writeSwitch msg
  | Op.setTrailer lines => Controller.clearToEnd { tc with trailer := lines }

/-- The scrollback bytes of one `Write`: what it hands to the sink after its
clear-to-end code and before its repaint. -/
def Controller.scrollbackOfWrite (tc : Controller) (msg : List Byte) : List Byte :=
  emitted tc.clearToEnd ((tc.clearToEnd).writeSwitch msg)

/-- The scrollback bytes of a sequence of calls, in call order. -/
def Controller.scrollback : Controller → List Op → List Byte
  | _, [] => []
  | tc, Op.write msg :: ops =>
    tc.scrollbackOfWrite msg ++ Controller.scrollback (tc.step (Op.write msg)) ops
  | tc, Op.setTrailer lines :: ops => Controller.scrollback (tc.step (Op.setTrailer lines)) ops

/-- The inputs of the `Write` calls of a sequence, concatenated in call order. -/
def writeInputs : List Op → List Byte
  | [] => []
  | Op.write msg :: ops => msg ++ writeInputs ops
  | Op.setTrailer _ :: ops => writeInputs ops

/-- The suffix of `s` that follows its last line break; all of `s` when it
has none. -/
def afterLastBreak (s : List Byte) : List Byte :=
  (s.reverse.takeWhile (fun x => x ≠ nl)).reverse

/-- A sink taking every payload in full. -/
def okSink : Sink := { resp := fun _ _ => none, calls := [] }

/-- A sink on which every write fails without taking a byte. -/
def deadSink : Sink := { resp := fun _ _ => some 0, calls := [] }

/-- The sink takes the whole buffered line when `Write` flushes it, right
after the clear-to-end code.  An empty buffer is never handed over. -/
def Controller.FlushTaken (tc : Controller) : Prop :=
  (tc.clearToEnd).wr.taken tc.partialBuf = tc.partialBuf.length

instance (tc : Controller) : Decidable tc.FlushTaken :=
  inferInstanceAs (Decidable (_ = _))

/-- The contract of `Write` on a message ending in a line break: the sink is
handed the clear-to-end code, the old buffered line, the message, the style
reset, the trailer lines and the cursor-up for their number, and the buffered
line is empty afterwards. -/
def TrailingBreakContract (tc : Controller) (msg : List Byte) : Prop :=
  emitted tc (tc.Write msg).1 =
      clearCode ++ tc.partialBuf ++ msg ++ styleReset ++ trailerBytes tc.trailer
        ++ cursorUp (tc.trailer.length : Int)
    ∧ (tc.Write msg).1.partialBuf = []

instance (tc : Controller) (msg : List Byte) : Decidable (TrailingBreakContract tc msg) :=
  inferInstanceAs (Decidable (_ ∧ _))

/-- The contract of `Write` on a message whose last line break, at index `i`,
is not its last byte: before the repaint the sink is handed the clear-to-end
code, the old buffered line and the message through index `i`; afterwards the
buffered line is the rest of the message and holds no line break; the repaint
shows it above the trailer. -/
def MixedContract (tc : Controller) (msg : List Byte) (i : Nat) : Prop :=
  emitted tc ((tc.clearToEnd).writeSwitch msg) = clearCode ++ tc.partialBuf ++ msg.take (i + 1)
    ∧ (tc.Write msg).1.partialBuf = msg.drop (i + 1)
    ∧ nl ∉ (tc.Write msg).1.partialBuf
    ∧ emitted ((tc.clearToEnd).writeSwitch msg) (tc.Write msg).1 =
        msg.drop (i + 1) ++ [nl] ++ styleReset ++ trailerBytes tc.trailer
          ++ cursorUpCode ((tc.trailer.length : Int) + 1)

instance (tc : Controller) (msg : List Byte) (i : Nat) : Decidable (MixedContract tc msg i) :=
  inferInstanceAs (Decidable (_ ∧ _))

/-- The bytes of an ASCII text. -/
def ascii (s : String) : List Byte := s.toList.map charByte

/-- The state reached on the failing sink once `abc` has been written. -/
def stuckAfterAbc : Controller := ((NewController deadSink).Write (ascii "abc")).1

/-- A short session: a fragment, a trailer, a write with a break in the
middle, and one more fragment. -/
def demoOps : List Op :=
  [Op.write (ascii "ab"), Op.setTrailer [ascii "T"], Op.write (ascii "c\nd"),
    Op.write (ascii "e")]

/-- The answer the sink gave to its call number `k`, read off its log: the
device answers by the payloads before the call and the payload of the call. -/
def Sink.answer (w : Sink) (k : Nat) : Option Nat :=
  w.resp (w.calls.take k) (w.calls.getD k [])

/-- Some write to the sink failed on the way from state `a` to the later
state `b`: a call made in between was answered with an error. -/
def sinkFailed (a b : Controller) : Prop :=
  ∃ k, k < b.wr.calls.length ∧ a.wr.calls.length ≤ k ∧ b.wr.answer k ≠ none

instance (a b : Controller) : Decidable (sinkFailed a b) :=
  inferInstanceAs (Decidable (∃ k, k < _ ∧ _))

/-- A sequence of `Write` calls. -/
def writes (msgs : List (List Byte)) : List Op := msgs.map Op.write

/-! ## Lemmas on the library functions and on single steps -/

theorem emit_nil (tc : Controller) : tc.emit [] = tc := by
  cases tc with
  | mk wr p t => cases wr; simp [Controller.emit]

theorem emit_emit (tc : Controller) (L M : List (List Byte)) :
    (tc.emit L).emit M = tc.emit (L ++ M) := by
  simp [Controller.emit, List.append_assoc]

theorem wrWrite_eq_emit (tc : Controller) (p : List Byte) : tc.wrWrite p = tc.emit [p] := rfl

theorem printLines_eq_emit (lines : List (List Byte)) : ∀ tc : Controller,
    tc.printLines lines = tc.emit (lines.map (fun l => [l, [nl]])).flatten := by
  induction lines with
  | nil => intro tc; simp [Controller.printLines, emit_nil]
  | cons l ls ih =>
    intro tc
    have h := ih ((tc.wrWrite l).wrWrite [nl])
    simp only [Controller.printLines, List.foldl_cons] at h ⊢
    rw [h, wrWrite_eq_emit, wrWrite_eq_emit, emit_emit, emit_emit]
    simp

theorem flatten_lines (t : List (List Byte)) :
    ((t.map (fun l => [l, [nl]])).flatten).flatten = (t.map (fun l => l ++ [nl])).flatten := by
  induction t with
  | nil => rfl
  | cons l ls ih => simp [ih]

theorem repaintCalls_flatten (p : List Byte) (t : List (List Byte)) :
    (repaintCalls p t).flatten = repaintBytes p t := by
  unfold repaintCalls repaintBytes cursorUp trailerBytes
  simp only [List.flatten_append, flatten_lines]
  split_ifs <;> simp

theorem currentTrailerHeight_eq (tc : Controller) :
    tc.currentTrailerHeight = blockHeight tc.partialBuf tc.trailer := by
  unfold Controller.currentTrailerHeight blockHeight
  cases h : tc.partialBuf <;> simp

theorem emit_trailer (tc : Controller) (L : List (List Byte)) : (tc.emit L).trailer = tc.trailer := rfl

theorem emit_partialBuf (tc : Controller) (L : List (List Byte)) :
    (tc.emit L).partialBuf = tc.partialBuf := rfl

theorem printTrailer_eq_emit (tc : Controller) :
    tc.printTrailer = tc.emit (repaintCalls tc.partialBuf tc.trailer) := by
  unfold Controller.printTrailer repaintCalls
  simp only [Controller.cursorPositionRestore, Controller.cursorMoveUp,
    printLines_eq_emit, wrWrite_eq_emit, emit_emit, currentTrailerHeight_eq, emit_trailer,
    emit_partialBuf, gt_iff_lt, List.length_pos]
  by_cases hp : tc.partialBuf = []
  · simp only [hp, ne_eq, not_true_eq_false, if_false, if_true, emit_trailer, emit_partialBuf]
    split_ifs <;> simp [emit_emit]
  · simp only [hp, ne_eq, not_false_eq_true, if_false, if_true, emit_trailer, emit_partialBuf]
    split_ifs <;> simp [emit_emit]

theorem lastIndexLoop_spec (s : List Byte) (c : Byte) : ∀ n : Nat,
    (lastIndexLoop s c n = -1 ∧ ∀ j, j < n → s[j]? ≠ some c) ∨
    (∃ i : Nat, i < n ∧ lastIndexLoop s c n = (i : Int) ∧ s[i]? = some c ∧
      ∀ j, i < j → j < n → s[j]? ≠ some c) := by
  intro n
  induction n with
  | zero => left; exact ⟨rfl, fun j hj => absurd hj (Nat.not_lt_zero j)⟩
  | succ n ih =>
    by_cases hc : s[n]? = some c
    · right
      refine ⟨n, Nat.lt_succ_self n, by simp [lastIndexLoop, hc], hc, ?_⟩
      intro j h1 h2; omega
    · have hstep : lastIndexLoop s c (n + 1) = lastIndexLoop s c n := by
        simp [lastIndexLoop, hc]
      rcases ih with ⟨h1, h2⟩ | ⟨i, hi, h1, h2, h3⟩
      · left
        refine ⟨by rw [hstep, h1], ?_⟩
        intro j hj
        rcases Nat.lt_succ_iff_lt_or_eq.mp hj with h | h
        · exact h2 j h
        · rw [h]; exact hc
      · right
        refine ⟨i, Nat.lt_succ_of_lt hi, by rw [hstep, h1], h2, ?_⟩
        intro j hij hj
        rcases Nat.lt_succ_iff_lt_or_eq.mp hj with h | h
        · exact h3 j hij h
        · rw [h]; exact hc

/-- Without the byte, the search answers `-1`. -/
theorem LastIndexByte_of_not_mem (s : List Byte) (c : Byte) (h : c ∉ s) :
    LastIndexByte s c = -1 := by
  rcases lastIndexLoop_spec s c s.length with ⟨h1, _⟩ | ⟨i, _, _, h2, _⟩
  · exact h1
  · exact absurd (List.getElem?_mem h2) h

/-- The search finds the last occurrence. -/
theorem LastIndexByte_append_cons (a r : List Byte) (c : Byte) (h : c ∉ r) :
    LastIndexByte (a ++ c :: r) c = (a.length : Int) := by
  have hat : (a ++ c :: r)[a.length]? = some c := by
    rw [List.getElem?_append_right (Nat.le_refl _)]; simp
  have hlen : a.length < (a ++ c :: r).length := by simp
  rcases lastIndexLoop_spec (a ++ c :: r) c (a ++ c :: r).length with ⟨_, h2⟩ | ⟨i, hi, h1, h2, h3⟩
  · exact absurd hat (h2 _ hlen)
  · have hia : i = a.length := by
      rcases Nat.lt_trichotomy i a.length with hlt | heq | hgt
      · exact absurd hat (h3 _ hlt hlen)
      · exact heq
      · exfalso
        obtain ⟨k, hk⟩ : ∃ k, i = a.length + (k + 1) := ⟨i - a.length - 1, by omega⟩
        rw [hk] at h2
        have : r[k]? = some c := by
          simpa [List.getElem?_append_right, Nat.add_sub_cancel_left] using h2
        exact h (List.getElem?_mem this)
    unfold LastIndexByte
    rw [h1, hia]

/-- A message holds no line break, or splits at its last one. -/
theorem break_cases (c : Byte) (s : List Byte) :
    c ∉ s ∨ ∃ a r, s = a ++ c :: r ∧ c ∉ r := by
  induction s with
  | nil => left; simp
  | cons x xs ih =>
    rcases ih with h | ⟨a, r, h1, h2⟩
    · by_cases hx : x = c
      · right; exact ⟨[], xs, by simp [hx], h⟩
      · left; simp [h, Ne.symm hx]
    · right; exact ⟨x :: a, r, by simp [h1], h2⟩

theorem flushCalls_flatten (p : List Byte) : (flushCalls p).flatten = p := by
  unfold flushCalls; split_ifs with h <;> simp [h]

theorem taken_le (w : Sink) (p : List Byte) : w.taken p ≤ p.length := by
  unfold Sink.taken; split
  · exact Nat.le_refl _
  · exact Nat.min_le_right _ _

theorem taken_of_accepts (w : Sink) (p : List Byte) (h : w.AcceptsAll) :
    w.taken p = p.length := by
  unfold Sink.taken; rw [h w.calls p]

theorem bufWriteTo_fst (b : List Byte) (w : Sink) :
    (bufWriteTo b w).1 = b.drop (w.taken b) := by
  unfold bufWriteTo
  by_cases hb : 0 < b.length
  · simp only [hb, if_true, Sink.Write]
    cases hr : w.resp w.calls b with
    | none => simp [Sink.taken, hr]
    | some k => simp [Sink.taken, hr]
  · have : b = [] := by simpa using hb
    simp [this]

theorem bufWriteTo_snd (b : List Byte) (w : Sink) :
    (bufWriteTo b w).2.1 = { w with calls := w.calls ++ flushCalls b } := by
  unfold bufWriteTo flushCalls
  by_cases hb : 0 < b.length
  · have hne : b ≠ [] := List.length_pos.mp hb
    simp only [hb, if_true, Sink.Write, hne, if_false]
    cases hr : w.resp w.calls b with
    | none => simp [Sink.taken, hr]
    | some k => simp [Sink.taken, hr]
  · have : b = [] := by simpa using hb
    simp [this]

theorem partialWriteTo_eq (tc : Controller) :
    tc.partialWriteTo =
      { wr := { tc.wr with calls := tc.wr.calls ++ flushCalls tc.partialBuf },
        partialBuf := tc.partialBuf.drop (tc.wr.taken tc.partialBuf),
        trailer := tc.trailer } := by
  unfold Controller.partialWriteTo
  simp only [bufWriteTo_fst, bufWriteTo_snd]

theorem writeSwitch_noBreak (tc : Controller) (msg : List Byte) (h : nl ∉ msg) :
    tc.writeSwitch msg = tc.partialWrite msg := by
  unfold Controller.writeSwitch
  simp [LastIndexByte_of_not_mem msg nl h]

theorem writeSwitch_break (tc : Controller) (a r : List Byte) (h : nl ∉ r) :
    tc.writeSwitch (a ++ nl :: r) =
      { wr := { tc.wr with calls := tc.wr.calls ++ (flushCalls tc.partialBuf ++ [a ++ [nl]]) },
        partialBuf := tc.partialBuf.drop (tc.wr.taken tc.partialBuf) ++ r,
        trailer := tc.trailer } := by
  unfold Controller.writeSwitch
  have hidx := LastIndexByte_append_cons a r nl h
  have hne : ¬ ((a.length : Int) = -1) := by omega
  simp only [hidx, hne, if_false, partialWriteTo_eq, Controller.cursorPositionSave,
    Controller.wrWrite, Sink.Write, Controller.partialWrite]
  have htn : ((a.length : Int) + 1).toNat = a.length + 1 := by omega
  cases r with
  | nil =>
    have : (a.length : Int) = ((a ++ [nl]).length : Int) - 1 := by simp
    rw [if_pos this]
    simp
  | cons x xs =>
    have : ¬ ((a.length : Int) = ((a ++ nl :: x :: xs).length : Int) - 1) := by
      simp only [List.length_append, List.length_cons]; push_cast; omega
    simp only [this, if_false, htn]
    have h1 : List.take (a.length + 1) (a ++ nl :: x :: xs) = a ++ [nl] := by
      rw [List.take_append_eq_append_take]; simp
    have h2 : List.drop (a.length + 1) (a ++ nl :: x :: xs) = x :: xs := by
      rw [List.drop_append_eq_append_drop]; simp
    simp [h1, h2, List.append_assoc]

theorem emitted_of_calls (a b : Controller) (L : List (List Byte))
    (h : b.wr.calls = a.wr.calls ++ L) : emitted a b = L.flatten := by
  unfold emitted Sink.bytes
  rw [h, List.flatten_append, List.drop_left]

theorem clearToEnd_eq (tc : Controller) : tc.clearToEnd = tc.emit [clearCode] := rfl

/-- `Write` on a message without a line break. -/
theorem Write_noBreak (tc : Controller) (msg : List Byte) (h : nl ∉ msg) :
    (tc.Write msg).1 =
      { wr := { tc.wr with calls := tc.wr.calls ++
                  ([clearCode] ++ repaintCalls (tc.partialBuf ++ msg) tc.trailer) },
        partialBuf := tc.partialBuf ++ msg,
        trailer := tc.trailer } := by
  unfold Controller.Write
  simp only [writeSwitch_noBreak _ _ h, printTrailer_eq_emit, clearToEnd_eq]
  simp [Controller.emit, Controller.partialWrite, List.append_assoc]

/-- `Write` on a message that splits at its last line break into `a`, the
line break and `r`. -/
theorem Write_break (tc : Controller) (a r : List Byte) (h : nl ∉ r) :
    (tc.Write (a ++ nl :: r)).1 =
      { wr := { tc.wr with calls := tc.wr.calls ++
                  ([clearCode] ++ (flushCalls tc.partialBuf ++ [a ++ [nl]]) ++
                    repaintCalls
                      (tc.partialBuf.drop ((tc.clearToEnd).wr.taken tc.partialBuf) ++ r)
                      tc.trailer) },
        partialBuf := tc.partialBuf.drop ((tc.clearToEnd).wr.taken tc.partialBuf) ++ r,
        trailer := tc.trailer } := by
  unfold Controller.Write
  simp only [writeSwitch_break _ _ _ h, printTrailer_eq_emit]
  simp [Controller.emit, clearToEnd_eq, List.append_assoc]

theorem SetTrailer_eq (tc : Controller) (lines : List (List Byte)) :
    tc.SetTrailer lines =
      { wr := { tc.wr with calls := tc.wr.calls ++
                  ([clearCode] ++ repaintCalls tc.partialBuf lines) },
        partialBuf := tc.partialBuf,
        trailer := lines } := by
  unfold Controller.SetTrailer
  simp only [printTrailer_eq_emit, clearToEnd_eq]
  simp [Controller.emit, List.append_assoc]

theorem scrollbackOfWrite_noBreak (tc : Controller) (msg : List Byte) (h : nl ∉ msg) :
    tc.scrollbackOfWrite msg = [] := by
  unfold Controller.scrollbackOfWrite
  rw [writeSwitch_noBreak _ _ h]
  exact emitted_of_calls _ _ [] (by simp [Controller.partialWrite])

theorem scrollbackOfWrite_break (tc : Controller) (a r : List Byte) (h : nl ∉ r) :
    tc.scrollbackOfWrite (a ++ nl :: r) = tc.partialBuf ++ (a ++ [nl]) := by
  unfold Controller.scrollbackOfWrite
  rw [writeSwitch_break _ _ _ h]
  rw [emitted_of_calls _ _ (flushCalls tc.partialBuf ++ [a ++ [nl]]) (by rfl)]
  simp [flushCalls_flatten, clearToEnd_eq, emit_partialBuf]

theorem step_resp (tc : Controller) (op : Op) : (tc.step op).wr.resp = tc.wr.resp := by
  cases op with
  | write msg =>
    rcases break_cases nl msg with h | ⟨a, r, rfl, h⟩
    · simp only [Controller.step, Write_noBreak _ _ h]
    · simp only [Controller.step, Write_break _ _ _ h]
  | setTrailer lines => simp only [Controller.step, SetTrailer_eq]

theorem step_accepts (tc : Controller) (op : Op) (h : tc.wr.AcceptsAll) :
    (tc.step op).wr.AcceptsAll := by
  unfold Sink.AcceptsAll; rw [step_resp]; exact h

theorem Write_partialBuf_accepts (tc : Controller) (msg : List Byte) (h : tc.wr.AcceptsAll) :
    tc.scrollbackOfWrite msg ++ (tc.Write msg).1.partialBuf = tc.partialBuf ++ msg := by
  rcases break_cases nl msg with hm | ⟨a, r, rfl, hr⟩
  · rw [scrollbackOfWrite_noBreak _ _ hm, Write_noBreak _ _ hm]; simp
  · have ht : (tc.clearToEnd).wr.taken tc.partialBuf = tc.partialBuf.length :=
      taken_of_accepts _ _ (fun hh p => h hh p)
    rw [scrollbackOfWrite_break _ _ _ hr, Write_break _ _ _ hr, ht]
    simp

theorem scrollback_run (ops : List Op) : ∀ tc : Controller, tc.wr.AcceptsAll →
    tc.scrollback ops ++ (tc.run ops).partialBuf = tc.partialBuf ++ writeInputs ops := by
  induction ops with
  | nil => intro tc _; simp [Controller.scrollback, Controller.run, writeInputs]
  | cons op ops ih =>
    intro tc h
    have ih1 := ih (tc.step op) (step_accepts tc op h)
    cases op with
    | write msg =>
      have hs := Write_partialBuf_accepts tc msg h
      simp only [Controller.scrollback, Controller.run, List.foldl_cons, writeInputs,
        List.append_assoc] at ih1 ⊢
      rw [ih1, ← List.append_assoc, ← List.append_assoc]
      exact congrArg (fun l => l ++ writeInputs ops) hs
    | setTrailer lines =>
      simp only [Controller.scrollback, Controller.run, List.foldl_cons, writeInputs] at ih1 ⊢
      rw [ih1]
      simp [Controller.step, SetTrailer_eq]

theorem afterLastBreak_append_noBreak (H m : List Byte) (h : nl ∉ m) :
    afterLastBreak (H ++ m) = afterLastBreak H ++ m := by
  unfold afterLastBreak
  rw [List.reverse_append, List.takeWhile_append_of_pos, List.reverse_append, List.reverse_reverse]
  intro x hx
  have : x ≠ nl := fun e => h (e ▸ List.mem_reverse.mp hx)
  simpa using this

theorem afterLastBreak_break (H r : List Byte) (h : nl ∉ r) :
    afterLastBreak (H ++ nl :: r) = r := by
  unfold afterLastBreak
  rw [List.reverse_append, List.reverse_cons, List.append_assoc, List.takeWhile_append_of_pos]
  · simp
  · intro x hx
    have : x ≠ nl := fun e => h (e ▸ List.mem_reverse.mp hx)
    simpa using this

theorem partial_run (ops : List Op) : ∀ (tc : Controller) (H : List Byte), tc.wr.AcceptsAll →
    tc.partialBuf = afterLastBreak H →
    (tc.run ops).partialBuf = afterLastBreak (H ++ writeInputs ops) := by
  induction ops with
  | nil => intro tc H _ hp; simpa [Controller.run, writeInputs] using hp
  | cons op ops ih =>
    intro tc H h hp
    cases op with
    | write msg =>
      have key : (tc.step (Op.write msg)).partialBuf = afterLastBreak (H ++ msg) := by
        rcases break_cases nl msg with hm | ⟨a, r, rfl, hr⟩
        · rw [afterLastBreak_append_noBreak _ _ hm, ← hp]
          simp [Controller.step, Write_noBreak _ _ hm]
        · have ht : (tc.clearToEnd).wr.taken tc.partialBuf = tc.partialBuf.length :=
            taken_of_accepts _ _ (fun hh p => h hh p)
          rw [← List.append_assoc, afterLastBreak_break _ _ hr]
          simp [Controller.step, Write_break _ _ _ hr, ht]
      have := ih (tc.step (Op.write msg)) (H ++ msg) (step_accepts tc _ h) key
      simpa [Controller.run, writeInputs, List.append_assoc] using this
    | setTrailer lines =>
      have key : (tc.step (Op.setTrailer lines)).partialBuf = afterLastBreak H := by
        rw [← hp]; simp [Controller.step, SetTrailer_eq]
      have := ih (tc.step (Op.setTrailer lines)) H (step_accepts tc _ h) key
      simpa [Controller.run, writeInputs] using this

theorem step_noBreak (tc : Controller) (op : Op) (h : nl ∉ tc.partialBuf) :
    nl ∉ (tc.step op).partialBuf := by
  cases op with
  | write msg =>
    rcases break_cases nl msg with hm | ⟨a, r, rfl, hr⟩
    · simp only [Controller.step, Write_noBreak _ _ hm, List.mem_append, not_or]
      exact ⟨h, hm⟩
    · simp only [Controller.step, Write_break _ _ _ hr, List.mem_append, not_or]
      exact ⟨fun hd => h (List.mem_of_mem_drop hd), hr⟩
  | setTrailer lines => simpa [Controller.step, SetTrailer_eq] using h

theorem run_noBreak (ops : List Op) : ∀ tc : Controller, nl ∉ tc.partialBuf →
    nl ∉ (tc.run ops).partialBuf := by
  induction ops with
  | nil => intro tc h; simpa [Controller.run] using h
  | cons op ops ih =>
    intro tc h
    have := ih (tc.step op) (step_noBreak tc op h)
    simpa [Controller.run] using this

theorem repaintBytes_eq (p : List Byte) (t : List (List Byte)) :
    repaintBytes p t = (if p = [] then [] else p ++ [nl]) ++ styleReset ++ trailerBytes t
      ++ cursorUp (blockHeight p t) := rfl

theorem blockHeight_nonneg (p : List Byte) (t : List (List Byte)) : 0 ≤ blockHeight p t := by
  unfold blockHeight; split_ifs <;> omega

theorem blockHeight_eq_zero (p : List Byte) (t : List (List Byte)) :
    blockHeight p t = 0 ↔ p = [] ∧ t = [] := by
  unfold blockHeight
  constructor
  · intro h
    by_cases hp : p = []
    · simp only [hp, if_true, add_zero] at h
      exact ⟨hp, List.length_eq_zero.mp (by exact_mod_cast h)⟩
    · simp only [hp, if_false] at h; omega
  · rintro ⟨rfl, rfl⟩; simp

theorem repaintBytes_suffix (p : List Byte) (t : List (List Byte)) (h : 0 < blockHeight p t) :
    cursorUpCode (blockHeight p t) <:+ repaintBytes p t := by
  rw [repaintBytes_eq]; unfold cursorUp; rw [if_pos h]
  exact List.suffix_append _ _

theorem repaintBytes_zero : repaintBytes [] [] = styleReset := by
  simp [repaintBytes, blockHeight, cursorUp, trailerBytes]

theorem step_eq_printTrailer (tc : Controller) (op : Op) :
    tc.step op = (tc.beforeRepaint op).printTrailer := by
  cases op <;> rfl

theorem printTrailer_partialBuf (tc : Controller) : tc.printTrailer.partialBuf = tc.partialBuf := by
  rw [printTrailer_eq_emit]; rfl

theorem printTrailer_trailer (tc : Controller) : tc.printTrailer.trailer = tc.trailer := by
  rw [printTrailer_eq_emit]; rfl

/-- What a repaint hands to the sink. -/
theorem emitted_printTrailer (tc : Controller) :
    emitted tc tc.printTrailer = repaintBytes tc.partialBuf tc.trailer := by
  rw [emitted_of_calls tc tc.printTrailer (repaintCalls tc.partialBuf tc.trailer)
    (by rw [printTrailer_eq_emit]; rfl), repaintCalls_flatten]

/-- The calls of the sink only grow before the repaint. -/
theorem beforeRepaint_calls (tc : Controller) (op : Op) :
    ∃ L, (tc.beforeRepaint op).wr.calls = tc.wr.calls ++ L := by
  cases op with
  | write msg =>
    rcases break_cases nl msg with h | ⟨a, r, rfl, h⟩
    · exact ⟨[clearCode], by simp [Controller.beforeRepaint, writeSwitch_noBreak _ _ h,
        Controller.partialWrite, clearToEnd_eq, Controller.emit]⟩
    · exact ⟨[clearCode] ++ (flushCalls tc.partialBuf ++ [a ++ [nl]]), by
        simp [Controller.beforeRepaint, writeSwitch_break _ _ _ h, clearToEnd_eq,
          Controller.emit]⟩
  | setTrailer lines => exact ⟨[clearCode], by simp [Controller.beforeRepaint, clearToEnd_eq,
      Controller.emit]⟩

/-- Every call ends with the repaint of the state it leaves. -/
theorem emitted_step (tc : Controller) (op : Op) :
    ∃ pre, emitted tc (tc.step op) =
      pre ++ repaintBytes (tc.step op).partialBuf (tc.step op).trailer := by
  obtain ⟨L, hL⟩ := beforeRepaint_calls tc op
  refine ⟨L.flatten, ?_⟩
  rw [step_eq_printTrailer, printTrailer_partialBuf, printTrailer_trailer]
  rw [emitted_of_calls tc _ (L ++ repaintCalls (tc.beforeRepaint op).partialBuf
    (tc.beforeRepaint op).trailer) (by rw [printTrailer_eq_emit]; simp [Controller.emit, hL]),
    List.flatten_append, repaintCalls_flatten]

theorem flushTaken_of (tc : Controller) (h : tc.partialBuf = [] ∨ tc.wr.AcceptsAll) :
    tc.FlushTaken := by
  unfold Controller.FlushTaken
  rcases h with h | h
  · rw [h]; exact Nat.le_antisymm (taken_le _ _) (Nat.zero_le _)
  · exact taken_of_accepts _ _ (fun hh p => h hh p)

theorem emitted_self (tc : Controller) : emitted tc tc = [] := by
  unfold emitted; exact List.drop_length _

theorem getLast_break (msg : List Byte) (hne : msg ≠ []) (hlast : msg.getLast? = some nl) :
    ∃ a, msg = a ++ nl :: [] := by
  refine ⟨msg.dropLast, ?_⟩
  have h1 := List.dropLast_append_getLast hne
  have h2 : msg.getLast hne = nl := by
    rw [List.getLast?_eq_getLast _ hne] at hlast
    exact Option.some.inj hlast
  rw [h2] at h1
  exact h1.symm

theorem split_at_index (msg : List Byte) (i : Nat) (c : Byte) (hat : msg[i]? = some c) :
    msg = msg.take i ++ c :: msg.drop (i + 1) := by
  have hi : i < msg.length := by
    rcases Nat.lt_or_ge i msg.length with h | h
    · exact h
    · rw [List.getElem?_eq_none h] at hat; cases hat
  have hc : msg[i] = c := by
    rw [List.getElem?_eq_getElem hi] at hat
    exact Option.some.inj hat
  rw [← hc, ← List.drop_eq_getElem_cons hi, List.take_append_drop]

theorem Write_break_flushTaken (tc : Controller) (a r : List Byte) (h : nl ∉ r)
    (hf : tc.FlushTaken) :
    (tc.Write (a ++ nl :: r)).1 =
      { wr := { tc.wr with calls := tc.wr.calls ++
                  ([clearCode] ++ (flushCalls tc.partialBuf ++ [a ++ [nl]]) ++
                    repaintCalls r tc.trailer) },
        partialBuf := r,
        trailer := tc.trailer } := by
  unfold Controller.FlushTaken at hf
  rw [Write_break _ _ _ h, hf]
  simp

theorem mixed_split (tc : Controller) (a r : List Byte) (hr : nl ∉ r) (hne : r ≠ [])
    (hf : tc.FlushTaken) : MixedContract tc (a ++ nl :: r) a.length := by
  have hX : (tc.clearToEnd).writeSwitch (a ++ nl :: r) =
      { wr := { tc.wr with calls := tc.wr.calls ++
                  ([clearCode] ++ (flushCalls tc.partialBuf ++ [a ++ [nl]])) },
        partialBuf := r,
        trailer := tc.trailer } := by
    unfold Controller.FlushTaken at hf
    rw [writeSwitch_break _ _ _ hr]
    simp [clearToEnd_eq, Controller.emit] at hf ⊢
    simp [hf]
  have htake : List.take (a.length + 1) (a ++ nl :: r) = a ++ [nl] := by
    rw [List.take_append_eq_append_take]; simp
  have hdrop : List.drop (a.length + 1) (a ++ nl :: r) = r := by
    rw [List.drop_append_eq_append_drop]; simp
  have hW : (tc.Write (a ++ nl :: r)).1 = ((tc.clearToEnd).writeSwitch (a ++ nl :: r)).printTrailer :=
    rfl
  refine ⟨?_, ?_, ?_, ?_⟩
  · rw [htake, emitted_of_calls tc _ _ (by rw [hX])]
    simp [flushCalls_flatten, List.append_assoc]
  · rw [hdrop, hW, printTrailer_partialBuf, hX]
  · rw [hW, printTrailer_partialBuf, hX]; exact hr
  · rw [hdrop, hW, emitted_printTrailer, hX, repaintBytes_eq]
    have hpos : 0 < blockHeight r tc.trailer := by
      unfold blockHeight; rw [if_neg hne]; omega
    have hbh : blockHeight r tc.trailer = (tc.trailer.length : Int) + 1 := by
      unfold blockHeight; rw [if_neg hne]
    rw [hbh] at hpos
    simp only [cursorUp, if_pos hpos, if_neg hne, hbh]

/-- The suffix after the last line break, told by what it is: all of `s` when
`s` has no line break, otherwise what follows a line break and holds none. -/
theorem afterLastBreak_spec (s : List Byte) :
    (nl ∉ s ∧ afterLastBreak s = s) ∨
      (∃ pre, s = pre ++ nl :: afterLastBreak s ∧ nl ∉ afterLastBreak s) := by
  rcases break_cases nl s with h | ⟨a, r, rfl, h⟩
  · left
    have h0 : afterLastBreak ([] ++ s) = afterLastBreak [] ++ s :=
      afterLastBreak_append_noBreak [] s h
    rw [List.nil_append] at h0
    exact ⟨h, h0.trans (by simp [afterLastBreak])⟩
  · right
    rw [afterLastBreak_break _ _ h]
    exact ⟨a, rfl, h⟩

theorem okSink_accepts : okSink.AcceptsAll := fun _ _ => rfl

/-- When nothing of the old buffered line is left after the flush, the sink
took all of it. -/
theorem flushTaken_of_drop_nil (tc : Controller)
    (h : tc.partialBuf.drop ((tc.clearToEnd).wr.taken tc.partialBuf) = []) : tc.FlushTaken :=
  Nat.le_antisymm (taken_le _ _) (List.drop_eq_nil_iff.mp h)

/-- The error of a write is the answer logged for it. -/
theorem Sink.Write_error (w : Sink) (p : List Byte) :
    ((w.Write p).2.2 = none ↔ (w.Write p).1.answer w.calls.length = none) ∧
      (w.Write p).1.calls = w.calls ++ [p] := by
  have h : (w.Write p).1.answer w.calls.length = w.resp w.calls p := by
    simp [Sink.Write, Sink.answer, List.getD]
  refine ⟨?_, rfl⟩
  rw [h]
  unfold Sink.Write
  cases w.resp w.calls p <;> simp

theorem Write_trailer (tc : Controller) (msg : List Byte) :
    (tc.Write msg).1.trailer = tc.trailer := by
  rcases break_cases nl msg with h | ⟨a, r, rfl, h⟩
  · rw [Write_noBreak _ _ h]
  · rw [Write_break _ _ _ h]

theorem Write_resp (tc : Controller) (msg : List Byte) :
    (tc.Write msg).1.wr.resp = tc.wr.resp := step_resp tc (Op.write msg)

/-- The calls of a `Write` start with the clear-to-end code. -/
theorem Write_calls_head (tc : Controller) (msg : List Byte) :
    ∃ L, (tc.Write msg).1.wr.calls = tc.wr.calls ++ clearCode :: L := by
  rcases break_cases nl msg with h | ⟨a, r, rfl, h⟩
  · exact ⟨repaintCalls (tc.partialBuf ++ msg) tc.trailer, by rw [Write_noBreak _ _ h]; simp⟩
  · exact ⟨flushCalls tc.partialBuf ++ (a ++ [nl]) ::
      repaintCalls (List.drop ((tc.clearToEnd).wr.taken tc.partialBuf) tc.partialBuf ++ r)
        tc.trailer, by rw [Write_break _ _ _ h]; simp⟩

theorem sinkFailed_of_clear (tc : Controller) (msg : List Byte)
    (h : tc.wr.resp tc.wr.calls clearCode ≠ none) : sinkFailed tc (tc.Write msg).1 := by
  obtain ⟨L, hL⟩ := Write_calls_head tc msg
  refine ⟨tc.wr.calls.length, ?_, Nat.le_refl _, ?_⟩
  · rw [hL]; simp
  · unfold Sink.answer
    rw [Write_resp, hL]
    have h1 : (tc.wr.calls ++ clearCode :: L).take tc.wr.calls.length = tc.wr.calls := by simp
    have h2 : (tc.wr.calls ++ clearCode :: L).getD tc.wr.calls.length [] = clearCode := by
      rw [List.getD_eq_getElem?_getD, List.getElem?_append_right (Nat.le_refl _)]
      simp
    rw [h1, h2]
    exact h

theorem run_writes_trailer (msgs : List (List Byte)) : ∀ tc : Controller,
    (tc.run (writes msgs)).trailer = tc.trailer := by
  induction msgs with
  | nil => intro tc; rfl
  | cons m ms ih =>
    intro tc
    have := ih (tc.step (Op.write m))
    simp only [writes, Controller.run, List.map_cons, List.foldl_cons] at this ⊢
    rw [this]
    exact Write_trailer tc m

theorem emitted_repaint (tc : Controller) (op : Op) :
    emitted (tc.beforeRepaint op) (tc.step op)
      = repaintBytes (tc.step op).partialBuf (tc.step op).trailer := by
  rw [step_eq_printTrailer, emitted_printTrailer, printTrailer_partialBuf, printTrailer_trailer]

theorem emitted_SetTrailer (tc : Controller) (lines : List (List Byte)) :
    emitted tc (tc.SetTrailer lines) = clearCode ++ repaintBytes tc.partialBuf lines := by
  rw [emitted_of_calls tc _ _ (by rw [SetTrailer_eq])]
  simp [repaintCalls_flatten]

theorem repaintBytes_no_trailer (p : List Byte) :
    repaintBytes p [] =
      (if p = [] then [] else p ++ [nl]) ++ styleReset ++ (if p = [] then [] else cursorUpCode 1) := by
  by_cases hp : p = []
  · simp [hp, repaintBytes, blockHeight, cursorUp, trailerBytes]
  · simp [hp, repaintBytes, blockHeight, cursorUp, trailerBytes]

theorem digitChar_ne_nl : ∀ d, d < 10 → charByte (Nat.digitChar d) ≠ nl := by
  decide

theorem toDigitsCore_no_nl (fuel : Nat) : ∀ (n : Nat) (ds : List Char),
    (∀ c ∈ ds, charByte c ≠ nl) → ∀ c ∈ Nat.toDigitsCore 10 fuel n ds, charByte c ≠ nl := by
  induction fuel with
  | zero => intro n ds h c hc; exact h c (by simpa [Nat.toDigitsCore] using hc)
  | succ f ih =>
    intro n ds h c hc
    have hcons : ∀ c ∈ Nat.digitChar (n % 10) :: ds, charByte c ≠ nl := by
      intro c hc
      rcases List.mem_cons.mp hc with rfl | h'
      · exact digitChar_ne_nl _ (Nat.mod_lt _ (by decide))
      · exact h c h'
    unfold Nat.toDigitsCore at hc
    simp only at hc
    split_ifs at hc
    · exact hcons c hc
    · exact ih _ _ hcons c hc

theorem Itoa_no_nl (i : Int) : nl ∉ Itoa i := by
  have hd : ∀ n, nl ∉ (Nat.toDigits 10 n).map charByte := by
    intro n hmem
    obtain ⟨c, hc, hcb⟩ := List.mem_map.mp hmem
    exact toDigitsCore_no_nl _ _ [] (by simp) c hc hcb
  unfold Itoa
  split_ifs
  · intro hmem
    rcases List.mem_cons.mp hmem with h | h
    · exact absurd h (by decide)
    · exact hd _ h
  · exact hd _

theorem cursorUp_no_nl (n : Int) : nl ∉ cursorUp n := by
  unfold cursorUp
  split_ifs
  · unfold cursorUpCode
    intro h
    rcases List.mem_append.mp h with h | h
    · rcases List.mem_append.mp h with h | h
      · revert h; decide
      · exact Itoa_no_nl n h
    · revert h; decide
  · simp

theorem count_trailerBytes (t : List (List Byte)) (h : ∀ l ∈ t, nl ∉ l) :
    (trailerBytes t).count nl = t.length := by
  induction t with
  | nil => rfl
  | cons l ls ih =>
    have h1 : nl ∉ l := h l (List.mem_cons_self _ _)
    have h2 := ih (fun x hx => h x (List.mem_cons_of_mem _ hx))
    unfold trailerBytes at h2 ⊢
    simp only [List.map_cons, List.flatten_cons, List.count_append, h2,
      List.count_eq_zero_of_not_mem h1, List.length_cons]
    simp
    omega

/-- The line breaks of a repaint are as many as the height of its block. -/
theorem count_repaintBytes (p : List Byte) (t : List (List Byte)) (hp : nl ∉ p)
    (ht : ∀ l ∈ t, nl ∉ l) : ((repaintBytes p t).count nl : Int) = blockHeight p t := by
  rw [repaintBytes_eq]
  have hs : styleReset.count nl = 0 := by decide
  have hc : (cursorUp (blockHeight p t)).count nl = 0 :=
    List.count_eq_zero_of_not_mem (cursorUp_no_nl _)
  have hb : ((if p = [] then [] else p ++ [nl]) : List Byte).count nl
      = if p = [] then 0 else 1 := by
    by_cases h : p = []
    · simp [h]
    · simp [h, List.count_eq_zero_of_not_mem hp]
  rw [List.count_append, List.count_append, List.count_append, hs, hc, hb,
    count_trailerBytes t ht]
  unfold blockHeight
  by_cases h : p = []
  · simp [h]
  · simp [h]
    omega

/-! ## The properties of the controller -/

/-- C1: scrollback fidelity.  On a fresh controller whose sink accepts every
write, after any sequence of `Write` and `SetTrailer` calls, the scrollback
bytes of the `Write` calls (what each hands to the sink between its
clear-to-end code and its repaint), concatenated in call order and followed by
the final content of the buffered line, are the concatenation of all `Write`
inputs.  The scrollback bytes of one `Write` are the old buffered line
followed by the input through its last line break, and nothing for an input
without a line break. -/
theorem scrollback_fidelity (w : Sink) (ops : List Op) (hw : w.AcceptsAll) :
    (NewController w).scrollback ops ++ ((NewController w).run ops).partialBuf
        = writeInputs ops ∧
      (∀ (tc : Controller) (a r : List Byte), nl ∉ r →
        tc.scrollbackOfWrite (a ++ nl :: r) = tc.partialBuf ++ (a ++ [nl])) ∧
      (∀ (tc : Controller) (msg : List Byte), nl ∉ msg → tc.scrollbackOfWrite msg = []) := by
  refine ⟨?_, scrollbackOfWrite_break, scrollbackOfWrite_noBreak⟩
  have := scrollback_run ops (NewController w) hw
  simpa [NewController, Controller.cursorPositionSave] using this

/-- C1 at a concrete input: the session `demoOps` on a sink that accepts
every write. -/
theorem scrollback_fidelity_witness :
    (NewController okSink).scrollback demoOps ++ ((NewController okSink).run demoOps).partialBuf
      = ascii "abc\nde" :=
  (scrollback_fidelity okSink demoOps okSink_accepts).1.trans (by decide)

/-- C2: on a fresh controller whose sink accepts every write, after any
sequence of `Write` and `SetTrailer` calls the buffered line is the suffix of
the concatenated `Write` inputs that follows their last line break, and the
whole concatenation when there is none. -/
theorem partial_is_after_last_break (w : Sink) (ops : List Op) (hw : w.AcceptsAll) :
    ((NewController w).run ops).partialBuf = afterLastBreak (writeInputs ops) ∧
      ((nl ∉ writeInputs ops ∧ ((NewController w).run ops).partialBuf = writeInputs ops) ∨
        (∃ pre, writeInputs ops = pre ++ nl :: ((NewController w).run ops).partialBuf ∧
          nl ∉ ((NewController w).run ops).partialBuf)) := by
  have h : ((NewController w).run ops).partialBuf = afterLastBreak (writeInputs ops) := by
    have := partial_run ops (NewController w) [] hw rfl
    simpa using this
  refine ⟨h, ?_⟩
  rw [h]
  exact afterLastBreak_spec (writeInputs ops)

/-- C2 at a concrete input: after the session `demoOps` the buffered line is
`de`. -/
theorem partial_is_after_last_break_witness :
    ((NewController okSink).run demoOps).partialBuf = ascii "de" :=
  (partial_is_after_last_break okSink demoOps okSink_accepts).1.trans (by decide)

/-- C3: in every state reached from `NewController` by any sequence of `Write`
and `SetTrailer` calls, on any sink and with any inputs, the buffered line
holds no line-break byte. -/
theorem partial_never_holds_break (w : Sink) (ops : List Op) :
    nl ∉ ((NewController w).run ops).partialBuf :=
  run_noBreak ops (NewController w) (by simp [NewController, Controller.cursorPositionSave])

/-- C4: a `Write` or `SetTrailer` call that leaves a block height
`N = len(trailer) + (1 if the buffered line is non-empty)` above zero (the
value `currentTrailerHeight` computes) ends its output with carriage return,
`ESC [`, the decimal digits of `N`, `A`.  So `Write("partial line")` on a fresh
controller followed by `SetTrailer(["status"])` ends with the cursor-up of 2,
and `SetTrailer(["AAA","BBB"])` followed by `Write("x\n")` ends with the
cursor-up of 2 whatever the trailer was before, from any state whose buffered
line is empty or whose sink accepts every write. -/
theorem cursor_up_closes_call :
    (∀ (tc : Controller) (op : Op),
        0 < blockHeight (tc.step op).partialBuf (tc.step op).trailer →
        (tc.step op).currentTrailerHeight
            = blockHeight (tc.step op).partialBuf (tc.step op).trailer ∧
          cursorUpCode (blockHeight (tc.step op).partialBuf (tc.step op).trailer)
            <:+ emitted tc (tc.step op)) ∧
    (∀ w : Sink,
        [13, 27, 91, 50, 65] <:+
          emitted ((NewController w).Write (ascii "partial line")).1
            (((NewController w).Write (ascii "partial line")).1.SetTrailer [ascii "status"])) ∧
    (∀ tc : Controller, tc.partialBuf = [] ∨ tc.wr.AcceptsAll →
        [13, 27, 91, 50, 65] <:+
          emitted (tc.SetTrailer [ascii "AAA", ascii "BBB"])
            ((tc.SetTrailer [ascii "AAA", ascii "BBB"]).Write (ascii "x\n")).1) := by
  have main : ∀ (tc : Controller) (op : Op),
      0 < blockHeight (tc.step op).partialBuf (tc.step op).trailer →
      cursorUpCode (blockHeight (tc.step op).partialBuf (tc.step op).trailer)
        <:+ emitted tc (tc.step op) := by
    intro tc op h
    obtain ⟨pre, hpre⟩ := emitted_step tc op
    rw [hpre]
    exact (repaintBytes_suffix _ _ h).trans (List.suffix_append _ _)
  refine ⟨fun tc op h => ⟨currentTrailerHeight_eq _, main tc op h⟩, ?_, ?_⟩
  · intro w
    have hp : ((NewController w).Write (ascii "partial line")).1.partialBuf
        = ascii "partial line" := by
      rw [Write_noBreak _ _ (by decide)]; rfl
    have h := main ((NewController w).Write (ascii "partial line")).1
      (Op.setTrailer [ascii "status"])
    simp only [Controller.step, SetTrailer_eq, hp] at h
    rw [SetTrailer_eq, hp]
    exact h (by decide)
  · intro tc hflush
    have hft := flushTaken_of (tc.SetTrailer [ascii "AAA", ascii "BBB"])
      (by simpa [SetTrailer_eq] using hflush)
    have hw : ascii "x\n" = ascii "x" ++ nl :: [] := by decide
    have hp : ((tc.SetTrailer [ascii "AAA", ascii "BBB"]).Write (ascii "x\n")).1.partialBuf
        = [] := by
      rw [hw, Write_break _ _ _ (by simp)]
      unfold Controller.FlushTaken at hft
      simp [hft]
    have ht : ((tc.SetTrailer [ascii "AAA", ascii "BBB"]).Write (ascii "x\n")).1.trailer
        = [ascii "AAA", ascii "BBB"] := by
      rw [hw, Write_break _ _ _ (by simp), SetTrailer_eq]
    have h := main (tc.SetTrailer [ascii "AAA", ascii "BBB"]) (Op.write (ascii "x\n"))
    simp only [Controller.step, hp, ht] at h
    exact h (by decide)

/-- C4 at a concrete input: a fragment written to a fresh controller leaves
height 1, and the call ends with the cursor-up of 1. -/
theorem cursor_up_closes_call_witness :
    [13, 27, 91, 49, 65] <:+
      emitted (NewController okSink) ((NewController okSink).step (Op.write (ascii "ab"))) :=
  (cursor_up_closes_call.1 (NewController okSink) (Op.write (ascii "ab")) (by decide)).2

/-- C5: a `Write` or `SetTrailer` call that leaves the trailer and the
buffered line empty has height 0, its repaint hands the sink the style reset
and nothing else, so the output of the call ends with the style reset; and
`cursorMoveUp n` leaves the controller and its sink untouched for `n ≤ 0`. -/
theorem move_up_zero_is_skipped :
    (∀ (tc : Controller) (op : Op),
        (tc.step op).trailer = [] → (tc.step op).partialBuf = [] →
        (tc.step op).currentTrailerHeight = 0 ∧
          emitted (tc.beforeRepaint op) (tc.step op) = styleReset ∧
          styleReset <:+ emitted tc (tc.step op)) ∧
    (∀ (tc : Controller) (n : Int), n ≤ 0 →
        tc.cursorMoveUp n = tc ∧ emitted tc (tc.cursorMoveUp n) = []) := by
  constructor
  · intro tc op ht hp
    refine ⟨?_, ?_, ?_⟩
    · rw [currentTrailerHeight_eq, ht, hp]; rfl
    · rw [step_eq_printTrailer] at ht hp ⊢
      rw [printTrailer_trailer] at ht
      rw [printTrailer_partialBuf] at hp
      rw [emitted_printTrailer, ht, hp, repaintBytes_zero]
    · obtain ⟨pre, hpre⟩ := emitted_step tc op
      rw [hpre, ht, hp, repaintBytes_zero]
      exact List.suffix_append _ _
  · intro tc n hn
    have h : tc.cursorMoveUp n = tc := by
      unfold Controller.cursorMoveUp
      rw [if_neg (by omega)]
    rw [h]
    exact ⟨rfl, emitted_self tc⟩

/-- C5 at concrete inputs: a full line written to a fresh controller, and a
move up by `-1`. -/
theorem move_up_zero_is_skipped_witness :
    emitted ((NewController okSink).beforeRepaint (Op.write (ascii "a\n")))
        ((NewController okSink).step (Op.write (ascii "a\n"))) = [27, 91, 109] ∧
      (NewController okSink).cursorMoveUp (-1) = NewController okSink :=
  ⟨(move_up_zero_is_skipped.1 (NewController okSink) (Op.write (ascii "a\n"))
      (by decide) (by decide)).2.1,
    (move_up_zero_is_skipped.2 (NewController okSink) (-1) (by decide)).1⟩

/-- C6 as stated fails: on a sink that refuses every write, `Write("abc")`
then `Write("def\n")` leaves `abc` in the buffered line, so the buffer is not
empty afterwards. -/
theorem trailing_break_write_fails_on_refused_flush :
    (stuckAfterAbc.Write (ascii "def\n")).1.partialBuf = ascii "abc" ∧
      ¬ TrailingBreakContract stuckAfterAbc (ascii "def\n") := by
  decide

/-- C6, amended: for every non-empty message whose last byte is a line break,
in any state with buffered line `p` and trailer `t` whose sink takes the whole
of `p` when it is flushed, `Write` hands the sink the clear-to-end code, `p`,
the message, the style reset, each line of `t` followed by a line break, and
the cursor-up for `len(t)` (nothing for an empty `t`), and the buffered line
is empty afterwards.  The flush is taken whole when `p` is empty or the sink
accepts every write, and wherever the contract holds the flush was taken
whole.  `Write("abc")` then `Write("def\n")` puts `abcdef\n` into scrollback,
and `Write("two\n\nbreaks\n")` is emitted as it is. -/
theorem trailing_break_write :
    (∀ (tc : Controller) (msg : List Byte), msg ≠ [] → msg.getLast? = some nl →
        tc.FlushTaken → TrailingBreakContract tc msg) ∧
    (∀ tc : Controller, tc.partialBuf = [] ∨ tc.wr.AcceptsAll → tc.FlushTaken) ∧
    (∀ (tc : Controller) (msg : List Byte), msg ≠ [] → msg.getLast? = some nl →
        TrailingBreakContract tc msg → tc.FlushTaken) ∧
    (∀ w : Sink,
        ((NewController w).Write (ascii "abc")).1.scrollbackOfWrite (ascii "def\n")
          = ascii "abcdef\n") ∧
    (∀ w : Sink, w.AcceptsAll →
        (((NewController w).Write (ascii "abc")).1.Write (ascii "def\n")).1.partialBuf = []) ∧
    (∀ w : Sink,
        (NewController w).scrollbackOfWrite (ascii "two\n\nbreaks\n") = ascii "two\n\nbreaks\n" ∧
        ((NewController w).Write (ascii "two\n\nbreaks\n")).1.partialBuf = []) := by
  refine ⟨?_, flushTaken_of, ?_, ?_, ?_, ?_⟩
  · intro tc msg hne hlast hf
    obtain ⟨a, rfl⟩ := getLast_break msg hne hlast
    have hW := Write_break_flushTaken tc a [] (by simp) hf
    constructor
    · rw [emitted_of_calls tc _ _ (by rw [hW])]
      simp only [List.flatten_append, repaintCalls_flatten, flushCalls_flatten, repaintBytes_eq,
        blockHeight]
      simp [trailerBytes, List.append_assoc]
    · rw [hW]
  · intro tc msg hne hlast hc
    obtain ⟨a, rfl⟩ := getLast_break msg hne hlast
    have h2 := hc.2
    rw [Write_break _ _ _ (by simp)] at h2
    exact flushTaken_of_drop_nil tc (by simpa using h2)
  · intro w
    have hp : ((NewController w).Write (ascii "abc")).1.partialBuf = ascii "abc" := by
      rw [Write_noBreak _ _ (by decide)]; rfl
    have hm : ascii "def\n" = ascii "def" ++ nl :: [] := by decide
    rw [hm, scrollbackOfWrite_break _ _ _ (by simp), hp]
    decide
  · intro w hw
    have hm : ascii "def\n" = ascii "def" ++ nl :: [] := by decide
    have hacc : ((NewController w).Write (ascii "abc")).1.wr.AcceptsAll :=
      step_accepts (NewController w) (Op.write (ascii "abc")) hw
    rw [hm, Write_break_flushTaken _ _ _ (by simp) (flushTaken_of _ (Or.inr hacc))]
  · intro w
    have hm : ascii "two\n\nbreaks\n" = ascii "two\n\nbreaks" ++ nl :: [] := by decide
    constructor
    · rw [hm, scrollbackOfWrite_break _ _ _ (by simp)]; rfl
    · rw [hm, Write_break_flushTaken _ _ _ (by simp) (flushTaken_of _ (Or.inl rfl))]

/-- C6 at a concrete input: `Write("def\n")` after `Write("abc")` on a sink
that accepts every write. -/
theorem trailing_break_write_witness :
    TrailingBreakContract ((NewController okSink).Write (ascii "abc")).1 (ascii "def\n") :=
  trailing_break_write.1 ((NewController okSink).Write (ascii "abc")).1 (ascii "def\n")
    (by decide) (by decide) (by decide)

/-- C7 as stated fails: on a sink that refuses every write, `Write("abc")`
then `Write("d\ne")` leaves `abce` in the buffered line, not `e`: the old
buffered line is still there. -/
theorem mixed_write_fails_on_refused_flush :
    (stuckAfterAbc.Write (ascii "d\ne")).1.partialBuf = ascii "abce" ∧
      ¬ MixedContract stuckAfterAbc (ascii "d\ne") 1 := by
  decide

/-- C7, amended: for every message whose last line break is at index `i`
before its last byte, in any state with buffered line `p` whose sink takes the
whole of `p` when it is flushed, `Write` hands the sink the clear-to-end code,
`p` and the message through index `i` before the repaint; afterwards the
buffered line is the rest of the message after index `i` and holds no line
break; and the repaint starts with this new buffered line and a line break.
Wherever this contract holds the flush was taken whole.
So the write of `here's one line and\n a partial... ` leaves ` a partial... `
buffered. -/
theorem mixed_write :
    (∀ (tc : Controller) (msg : List Byte) (i : Nat),
        i + 1 < msg.length → msg[i]? = some nl → nl ∉ msg.drop (i + 1) →
        tc.FlushTaken → MixedContract tc msg i) ∧
    (∀ (tc : Controller) (msg : List Byte) (i : Nat),
        i + 1 < msg.length → msg[i]? = some nl → nl ∉ msg.drop (i + 1) →
        MixedContract tc msg i → tc.FlushTaken) ∧
    (∀ w : Sink, w.AcceptsAll →
        ((NewController w).Write (ascii "here's one line and\n a partial... ")).1.partialBuf
          = ascii " a partial... ") := by
  refine ⟨?_, ?_, ?_⟩
  · intro tc msg i hi hat hlast hf
    have hsplit := split_at_index msg i nl hat
    have hlen : (msg.take i).length = i := by
      rw [List.length_take]; omega
    have hne : msg.drop (i + 1) ≠ [] := by
      intro h
      have := congrArg List.length h
      simp at this; omega
    have := mixed_split tc (msg.take i) (msg.drop (i + 1)) hlast hne hf
    rw [← hsplit, hlen] at this
    exact this
  · intro tc msg i _ hat hlast hc
    have hsplit := split_at_index msg i nl hat
    have h2 := hc.2.1
    rw [hsplit, Write_break _ _ _ hlast, ← hsplit] at h2
    exact flushTaken_of_drop_nil tc (List.append_left_eq_self.mp h2)
  · intro w hw
    have hm : ascii "here's one line and\n a partial... "
        = ascii "here's one line and" ++ nl :: ascii " a partial... " := by decide
    rw [hm, Write_break_flushTaken _ _ _ (by decide) (flushTaken_of _ (Or.inr hw))]

/-- C7 at a concrete input: `Write("d\ne")` after `Write("abc")` on a sink
that accepts every write. -/
theorem mixed_write_witness :
    MixedContract ((NewController okSink).Write (ascii "abc")).1 (ascii "d\ne") 1 :=
  mixed_write.1 ((NewController okSink).Write (ascii "abc")).1 (ascii "d\ne") 1
    (by decide) (by decide) (by decide) (by decide)

/-- C8: for every message without a line break, in any state with buffered
line `p`, `Write` leaves the buffered line equal to `p` followed by the
message and the trailer as it was, hands the sink no scrollback bytes, and its
whole output is the clear-to-end code followed by the repaint of the new
state. -/
theorem no_break_write (tc : Controller) (msg : List Byte) (h : nl ∉ msg) :
    (tc.Write msg).1.partialBuf = tc.partialBuf ++ msg ∧
      (tc.Write msg).1.trailer = tc.trailer ∧
      tc.scrollbackOfWrite msg = [] ∧
      emitted tc (tc.Write msg).1
        = clearCode ++ emitted (tc.Write msg).1 ((tc.Write msg).1).printTrailer ∧
      emitted tc (tc.Write msg).1 = clearCode ++ repaintBytes (tc.partialBuf ++ msg) tc.trailer := by
  have hW := Write_noBreak tc msg h
  have he : emitted tc (tc.Write msg).1
      = clearCode ++ repaintBytes (tc.partialBuf ++ msg) tc.trailer := by
    rw [emitted_of_calls tc _ _ (by rw [hW])]
    simp [repaintCalls_flatten]
  refine ⟨by rw [hW], by rw [hW], scrollbackOfWrite_noBreak tc msg h, ?_, he⟩
  rw [emitted_printTrailer, he, hW]

/-- C8 at a concrete input: `Write(".")` after `Write("this line takes")`. -/
theorem no_break_write_witness :
    (((NewController okSink).Write (ascii "this line takes")).1.Write (ascii ".")).1.partialBuf
        = ascii "this line takes." ∧
      emitted ((NewController okSink).Write (ascii "this line takes")).1
          (((NewController okSink).Write (ascii "this line takes")).1.Write (ascii ".")).1
        = clearCode ++ repaintBytes (ascii "this line takes.") [] :=
  ⟨(no_break_write ((NewController okSink).Write (ascii "this line takes")).1 (ascii ".")
      (by decide)).1,
    (no_break_write ((NewController okSink).Write (ascii "this line takes")).1 (ascii ".")
      (by decide)).2.2.2.2⟩

/-- C9: in every state with buffered line `p`, `SetTrailer(lines)` hands the
sink, in this order, the clear-to-end code; `p` and a line break when `p` is
non-empty; the style reset; each element of `lines` followed by a line break;
and the cursor-up for `len(lines) + (1 if p is non-empty)`.  The output does
not depend on the previous trailer, the buffered line is untouched and the
trailer is `lines`. -/
theorem setTrailer_repaint_order (tc : Controller) (lines : List (List Byte)) :
    emitted tc (tc.SetTrailer lines) =
        clearCode ++ (if tc.partialBuf = [] then [] else tc.partialBuf ++ [nl]) ++ styleReset
          ++ (lines.map (fun l => l ++ [nl])).flatten
          ++ cursorUp ((lines.length : Int) + (if tc.partialBuf = [] then 0 else 1)) ∧
      (tc.SetTrailer lines).partialBuf = tc.partialBuf ∧
      (tc.SetTrailer lines).trailer = lines := by
  have hS := SetTrailer_eq tc lines
  refine ⟨?_, by rw [hS], by rw [hS]⟩
  rw [emitted_of_calls tc _ _ (by rw [hS])]
  simp [repaintCalls_flatten, repaintBytes_eq, trailerBytes, blockHeight, List.append_assoc]

/-- C10: for every message and every state, on any sink, `Write` returns the
length of the message and a nil error. -/
theorem write_returns_length_and_nil (tc : Controller) (msg : List Byte) :
    (tc.Write msg).2 = ((msg.length : Int), none) := rfl

/-- C11 as stated fails: on a sink that refuses every write, the writes of
`Write("x\n")` to the sink fail, and the call returns a nil error. -/
theorem write_hides_sink_failure :
    sinkFailed (NewController deadSink) ((NewController deadSink).Write (ascii "x\n")).1 ∧
      ((NewController deadSink).Write (ascii "x\n")).2.2 = none :=
  ⟨by decide, rfl⟩

/-- C11, amended: sink failures are not surfaced.  If an underlying write to
the sink fails during a `Write` call, the call still returns the length of the
message and a nil error.  Such calls exist for every message: a sink that
refuses the clear-to-end code makes the call a failing one.  A failure is read
off the log of the sink, where the answer to a call is the error its `Write`
returned. -/
theorem write_drops_sink_failures :
    (∀ (tc : Controller) (msg : List Byte), sinkFailed tc (tc.Write msg).1 →
        (tc.Write msg).2 = ((msg.length : Int), none)) ∧
    (∀ (tc : Controller) (msg : List Byte), tc.wr.resp tc.wr.calls clearCode ≠ none →
        sinkFailed tc (tc.Write msg).1) ∧
    (∀ (w : Sink) (p : List Byte),
        ((w.Write p).2.2 = none ↔ (w.Write p).1.answer w.calls.length = none) ∧
          (w.Write p).1.calls = w.calls ++ [p]) :=
  ⟨fun _ _ _ => rfl, sinkFailed_of_clear, Sink.Write_error⟩

/-- C11 at a concrete input: `Write("def\n")` after `Write("abc")` on a sink
that refuses every write returns 4 and a nil error. -/
theorem write_drops_sink_failures_witness :
    (stuckAfterAbc.Write (ascii "def\n")).2 = (4, none) :=
  write_drops_sink_failures.1 stuckAfterAbc (ascii "def\n") (by decide)

/-- C12: frame of `SetTrailer`.  In every state and for every argument, the
buffered line is left as it was; the state the repaint starts from is the one
the clear-to-end write leaves, so nothing is handed to the sink in between;
and the whole output is the clear-to-end code followed by the repaint. -/
theorem setTrailer_frame (tc : Controller) (lines : List (List Byte)) :
    (tc.SetTrailer lines).partialBuf = tc.partialBuf ∧
      tc.beforeRepaint (Op.setTrailer lines) = Controller.clearToEnd { tc with trailer := lines } ∧
      tc.SetTrailer lines = (tc.beforeRepaint (Op.setTrailer lines)).printTrailer ∧
      emitted tc (tc.beforeRepaint (Op.setTrailer lines)) = clearCode ∧
      emitted tc (tc.SetTrailer lines)
        = clearCode ++ emitted (tc.beforeRepaint (Op.setTrailer lines)) (tc.SetTrailer lines) := by
  refine ⟨by rw [SetTrailer_eq], rfl, rfl, ?_, ?_⟩
  · rw [emitted_of_calls tc _ [clearCode]
      (by simp [Controller.beforeRepaint, clearToEnd_eq, Controller.emit])]
    simp
  · have := emitted_repaint tc (Op.setTrailer lines)
    simp only [Controller.step] at this
    rw [this, emitted_SetTrailer, SetTrailer_eq]

/-- C13: cursor parking.  In every state reached from `NewController`, for a
`Write` or `SetTrailer` call that leaves a trailer without a line break in any
of its lines, the repaint that ends the call hands the sink as many
line-break bytes as the height `N` of the block, and ends with the cursor-up
for `N`, which holds no line break itself; for `N = 0` the repaint is the
style reset alone.  So the rows gone down and the rows gone up cancel. -/
theorem cursor_parking (w : Sink) (ops : List Op) (op : Op)
    (ht : ∀ l ∈ (((NewController w).run ops).step op).trailer, nl ∉ l) :
    ((emitted (((NewController w).run ops).beforeRepaint op)
          (((NewController w).run ops).step op)).count nl : Int)
        = blockHeight (((NewController w).run ops).step op).partialBuf
            (((NewController w).run ops).step op).trailer ∧
      cursorUp (blockHeight (((NewController w).run ops).step op).partialBuf
          (((NewController w).run ops).step op).trailer)
        <:+ emitted (((NewController w).run ops).beforeRepaint op)
          (((NewController w).run ops).step op) ∧
      (cursorUp (blockHeight (((NewController w).run ops).step op).partialBuf
          (((NewController w).run ops).step op).trailer)).count nl = 0 ∧
      (blockHeight (((NewController w).run ops).step op).partialBuf
            (((NewController w).run ops).step op).trailer = 0 →
        emitted (((NewController w).run ops).beforeRepaint op)
          (((NewController w).run ops).step op) = styleReset) := by
  have hp : nl ∉ (((NewController w).run ops).step op).partialBuf :=
    step_noBreak _ op (run_noBreak ops (NewController w)
      (by simp [NewController, Controller.cursorPositionSave]))
  rw [emitted_repaint]
  refine ⟨count_repaintBytes _ _ hp ht, ?_, List.count_eq_zero_of_not_mem (cursorUp_no_nl _), ?_⟩
  · rw [repaintBytes_eq]; exact List.suffix_append _ _
  · intro h0
    obtain ⟨h1, h2⟩ := (blockHeight_eq_zero _ _).mp h0
    rw [h1, h2, repaintBytes_zero]

/-- C13 at a concrete input: after the session `demoOps` the write of `f`
repaints the buffered line and one trailer line, two line breaks in all. -/
theorem cursor_parking_witness :
    ((emitted (((NewController okSink).run demoOps).beforeRepaint (Op.write (ascii "f")))
        (((NewController okSink).run demoOps).step (Op.write (ascii "f")))).count nl : Int) = 2 :=
  (cursor_parking okSink demoOps (Op.write (ascii "f")) (by decide)).1

/-- C14: idempotence of `SetTrailer`.  In every state and for every `lines`,
a second `SetTrailer(lines)` right after the first leaves the trailer and the
buffered line as the first left them, and hands the sink the same bytes as the
first. -/
theorem setTrailer_idempotent (tc : Controller) (lines : List (List Byte)) :
    ((tc.SetTrailer lines).SetTrailer lines).trailer = (tc.SetTrailer lines).trailer ∧
      ((tc.SetTrailer lines).SetTrailer lines).partialBuf = (tc.SetTrailer lines).partialBuf ∧
      emitted (tc.SetTrailer lines) ((tc.SetTrailer lines).SetTrailer lines)
        = emitted tc (tc.SetTrailer lines) := by
  refine ⟨by simp only [SetTrailer_eq], by simp only [SetTrailer_eq], ?_⟩
  rw [emitted_SetTrailer, emitted_SetTrailer, SetTrailer_eq]

/-- C15: clearing the trailer.  In every state, `SetTrailer` with no lines
hands the sink the clear-to-end code, the buffered line and a line break when
it is non-empty, the style reset, and then the cursor-up of 1 when the
buffered line is non-empty and nothing otherwise.  After any further `Write`
calls the trailer is still empty, and the repaint of each `Write` is the
buffered line with its line break, the style reset and the cursor-up of 1, or
the style reset alone when nothing is buffered: no trailer line. -/
theorem clearing_the_trailer (tc : Controller) :
    emitted tc (tc.SetTrailer []) =
        clearCode ++ (if tc.partialBuf = [] then [] else tc.partialBuf ++ [nl]) ++ styleReset
          ++ (if tc.partialBuf = [] then [] else [13, 27, 91, 49, 65]) ∧
      (tc.SetTrailer []).trailer = [] ∧
      ∀ (msgs : List (List Byte)) (msg : List Byte),
        ((tc.SetTrailer []).run (writes msgs)).trailer = [] ∧
        (((tc.SetTrailer []).run (writes msgs)).step (Op.write msg)).trailer = [] ∧
        emitted (((tc.SetTrailer []).run (writes msgs)).beforeRepaint (Op.write msg))
            (((tc.SetTrailer []).run (writes msgs)).step (Op.write msg))
          = (if (((tc.SetTrailer []).run (writes msgs)).step (Op.write msg)).partialBuf = []
              then []
              else (((tc.SetTrailer []).run (writes msgs)).step (Op.write msg)).partialBuf
                ++ [nl])
            ++ styleReset
            ++ (if (((tc.SetTrailer []).run (writes msgs)).step (Op.write msg)).partialBuf = []
              then [] else [13, 27, 91, 49, 65]) := by
  have h1 : cursorUpCode 1 = [13, 27, 91, 49, 65] := by decide
  refine ⟨?_, by rw [SetTrailer_eq], ?_⟩
  · rw [emitted_SetTrailer, repaintBytes_no_trailer, h1]
    simp [List.append_assoc]
  · intro msgs msg
    have ht : ((tc.SetTrailer []).run (writes msgs)).trailer = [] := by
      rw [run_writes_trailer, SetTrailer_eq]
    have ht2 : (((tc.SetTrailer []).run (writes msgs)).step (Op.write msg)).trailer = [] := by
      simp only [Controller.step, Write_trailer, ht]
    refine ⟨ht, ht2, ?_⟩
    rw [emitted_repaint, ht2, repaintBytes_no_trailer, h1]

/-- C16: `NewController` returns a controller bound to the sink it was given,
hands the sink nothing, and starts with an empty buffered line and an empty
trailer. -/
theorem newController_is_silent (w : Sink) :
    (NewController w).wr = w ∧ (NewController w).wr.calls = w.calls ∧
      (NewController w).partialBuf = [] ∧ (NewController w).trailer = [] :=
  ⟨rfl, rfl, rfl, rfl⟩

/-- C18: the empty write.  The last line break of the empty message is at
`-1`, which is also its length less one; the `switch` takes the first case,
so the state after the clear-to-end write is left as it is: the buffered line
is unchanged and not flushed, the output is the clear-to-end code followed by
the repaint of the unchanged state, and the call returns 0 and a nil error. -/
theorem empty_write (tc : Controller) :
    LastIndexByte [] nl = -1 ∧
      ((([] : List Byte).length : Int) - 1 = -1) ∧
      (tc.clearToEnd).writeSwitch [] = tc.clearToEnd ∧
      (tc.Write []).1.partialBuf = tc.partialBuf ∧
      (tc.Write []).1.trailer = tc.trailer ∧
      tc.scrollbackOfWrite [] = [] ∧
      emitted tc (tc.Write []).1 = clearCode ++ repaintBytes tc.partialBuf tc.trailer ∧
      (tc.Write []).2 = (0, none) := by
  have hW := Write_noBreak tc [] (by simp)
  refine ⟨rfl, rfl, ?_, by rw [hW]; simp, by rw [hW], scrollbackOfWrite_noBreak tc [] (by simp), ?_, rfl⟩
  · rw [writeSwitch_noBreak _ _ (by simp)]
    simp [Controller.partialWrite]
  · rw [emitted_of_calls tc _ _ (by rw [hW])]
    simp [repaintCalls_flatten]

/-- C19: chunking independence.  On a sink that accepts every write, in every
state, `Write(a)` followed by `Write(b)` leaves the same buffered line and
trailer as `Write(a ++ b)`, and the scrollback bytes of the two calls, put
together, are those of the single call. -/
theorem chunking_independence (tc : Controller) (a b : List Byte) (h : tc.wr.AcceptsAll) :
    ((tc.Write a).1.Write b).1.partialBuf = (tc.Write (a ++ b)).1.partialBuf ∧
      ((tc.Write a).1.Write b).1.trailer = (tc.Write (a ++ b)).1.trailer ∧
      tc.scrollbackOfWrite a ++ (tc.Write a).1.scrollbackOfWrite b
        = tc.scrollbackOfWrite (a ++ b) := by
  have hacc : (tc.Write a).1.wr.AcceptsAll := step_accepts tc (Op.write a) h
  have hf : tc.FlushTaken := flushTaken_of tc (Or.inr h)
  have hf1 : (tc.Write a).1.FlushTaken := flushTaken_of _ (Or.inr hacc)
  have hp : ((tc.Write a).1.Write b).1.partialBuf = (tc.Write (a ++ b)).1.partialBuf := by
    rcases break_cases nl b with hb | ⟨b1, b2, rfl, hb⟩
    · rcases break_cases nl a with ha | ⟨a1, a2, rfl, ha⟩
      · have hab : nl ∉ a ++ b := by simp [ha, hb]
        rw [Write_noBreak _ _ hb, Write_noBreak _ _ ha, Write_noBreak _ _ hab]
        simp
      · have hab : nl ∉ a2 ++ b := by simp [ha, hb]
        have e : a1 ++ nl :: a2 ++ b = a1 ++ nl :: (a2 ++ b) := by simp
        rw [Write_noBreak _ _ hb, Write_break_flushTaken _ _ _ ha hf, e,
          Write_break_flushTaken _ _ _ hab hf]
    · have e : a ++ (b1 ++ nl :: b2) = (a ++ b1) ++ nl :: b2 := by simp
      rw [Write_break_flushTaken _ _ _ hb hf1, e, Write_break_flushTaken _ _ _ hb hf]
  refine ⟨hp, by rw [Write_trailer, Write_trailer, Write_trailer], ?_⟩
  have k1 := Write_partialBuf_accepts tc a h
  have k2 := Write_partialBuf_accepts (tc.Write a).1 b hacc
  have k3 := Write_partialBuf_accepts tc (a ++ b) h
  have : (tc.scrollbackOfWrite a ++ (tc.Write a).1.scrollbackOfWrite b)
        ++ ((tc.Write a).1.Write b).1.partialBuf
      = tc.scrollbackOfWrite (a ++ b) ++ ((tc.Write a).1.Write b).1.partialBuf := by
    rw [List.append_assoc, k2, ← List.append_assoc, k1, hp, k3, List.append_assoc]
  exact List.append_cancel_right this

/-- C19 at a concrete input: `ab\nc` and `d\ne` written in two calls and in
one. -/
theorem chunking_independence_witness :
    ((((NewController okSink).Write (ascii "ab\nc")).1.Write (ascii "d\ne")).1.partialBuf
        = ((NewController okSink).Write (ascii "ab\ncd\ne")).1.partialBuf) ∧
      (NewController okSink).scrollbackOfWrite (ascii "ab\nc")
          ++ ((NewController okSink).Write (ascii "ab\nc")).1.scrollbackOfWrite (ascii "d\ne")
        = ascii "ab\ncd\n" :=
  ⟨(chunking_independence (NewController okSink) (ascii "ab\nc") (ascii "d\ne")
      okSink_accepts).1,
    (chunking_independence (NewController okSink) (ascii "ab\nc") (ascii "d\ne")
      okSink_accepts).2.2.trans (by decide)⟩

/-- C20: frame of `Write`.  In every state and for every message, `Write`
leaves the trailer as it was; so after `SetTrailer(lines)` and any number of
`Write` calls the trailer is `lines`, and the repaint of a further `Write`
paints `lines`. -/
theorem write_frame :
    (∀ (tc : Controller) (msg : List Byte), (tc.Write msg).1.trailer = tc.trailer) ∧
    (∀ (tc : Controller) (lines : List (List Byte)) (msgs : List (List Byte)) (msg : List Byte),
      ((tc.SetTrailer lines).run (writes msgs)).trailer = lines ∧
      emitted (((tc.SetTrailer lines).run (writes msgs)).beforeRepaint (Op.write msg))
          (((tc.SetTrailer lines).run (writes msgs)).step (Op.write msg))
        = repaintBytes (((tc.SetTrailer lines).run (writes msgs)).step (Op.write msg)).partialBuf
            lines) := by
  refine ⟨Write_trailer, ?_⟩
  intro tc lines msgs msg
  have ht : ((tc.SetTrailer lines).run (writes msgs)).trailer = lines := by
    rw [run_writes_trailer, SetTrailer_eq]
  refine ⟨ht, ?_⟩
  rw [emitted_repaint]
  simp only [Controller.step, Write_trailer, ht]

end Ansicraft
